import Mathlib

/-!
Shallow embedding of the "scratch" stroke renderer (src/scratch.ts) in Lean 4.

Conventions of the embedding:
* JS numbers are modelled as real numbers (`ℝ`); `Math.floor` is `Int.floor`,
  `Math.sign` is `Real.sign`, trigonometric functions are the `Real` ones.
* The JS remainder `%` (sign of the dividend) with modulus 1 is `jsModOne`.
* A `LinePointPartial` record (a point sample with optional fields) is a
  structure of seven `Option ℝ` fields; `Object.assign` merging is `merge`.
* A `Stroke` wraps its evaluator function, mirroring the `_evaluator` field.
* The pixel buffer is a total function `ℤ → ℤ → Pixel` whose channels are
  real-valued on the 0..255 byte scale; byte quantisation performed by the
  host `Uint8ClampedArray` on non-integral writes is not modelled, but every
  `Math.floor` appearing in the source is.
* `Stroke.sequence` is embedded with an `Option` result: a JS out-of-bounds
  array element access (which would throw on `._evaluator`) yields `none`.
-/

open Real

noncomputable section

/-- Linear interpolation, from `lerp` in scratch.ts: `(1 - t) * a + t * b`. -/
def lerp (t a b : ℝ) : ℝ := (1 - t) * a + t * b

/-- Clamp within bounds, from `clamp(t, a, b)` in scratch.ts: if the bounds are
swapped (`a > b`) they are corrected first. -/
def clampB (t a b : ℝ) : ℝ := if b < a then max (min t a) b else max (min t b) a

/-- Clamp to the unit interval, from `clamp(t)` in scratch.ts (defaults a = 0, b = 1). -/
def clamp01 (t : ℝ) : ℝ := clampB t 0 1

/-- The JS remainder `t % 1` (result carries the sign of the dividend). -/
def jsModOne (t : ℝ) : ℝ := if 0 ≤ t then Int.fract t else -Int.fract (-t)

/-- The normalisation step of `slideEllipse` in scratch.ts: `(t % 1 + 1.5) % 1 - 0.5`. -/
def normT (t : ℝ) : ℝ := jsModOne (jsModOne t + 1.5) - 0.5

/-- Angle conversion for the polar/tangent ellipse forms, from `slideEllipse` in
scratch.ts: normalise `t`, apply the arctangent correction, add the left-quadrant
offset. -/
def slideEllipse (ra : ℝ) (t : ℝ) : ℝ :=
  let t2 := normT t
  let offset : ℝ := if 0.25 < |t2| then 0.5 * Real.sign t2 else 0
  Real.arctan (Real.tan (t2 * (2 * π)) * ra) / (2 * π) + offset

/-- Scalar bezier interpolation, from `bezier(t, values)` in scratch.ts: one value
is returned as is, otherwise interpolate between the bezier of all values but the
last and the bezier of all values but the first. The `[]` case is unreachable in
the source (the JS function would recurse forever on an empty array). -/
def bezier (t : ℝ) (values : List ℝ) : ℝ :=
  match values with
  | [] => 0
  | [v] => v
  | u :: v :: rest =>
    lerp t (bezier t ((u :: v :: rest).dropLast)) (bezier t (v :: rest))
termination_by values.length
decreasing_by
  all_goals simp [List.length_dropLast]

/-- A stroke point with optional values, from `LinePointPartial` in scratch.ts. -/
structure PointSample where
  x : Option ℝ := none
  y : Option ℝ := none
  r : Option ℝ := none
  g : Option ℝ := none
  b : Option ℝ := none
  a : Option ℝ := none
  w : Option ℝ := none

/-- The seven field names of a point sample. -/
inductive SampleField
  | x | y | r | g | b | a | w
deriving DecidableEq

/-- Projection of a point sample onto one named field. -/
def PointSample.get (p : PointSample) (fld : SampleField) : Option ℝ :=
  match fld with
  | .x => p.x
  | .y => p.y
  | .r => p.r
  | .g => p.g
  | .b => p.b
  | .a => p.a
  | .w => p.w

/-- One field of an `Object.assign` merge: the second (later) value wins when it
is defined, otherwise the first value is kept. -/
def mergeOpt (p q : Option ℝ) : Option ℝ :=
  match q with
  | some v => some v
  | none => p

/-- `Object.assign({}, p, q)` on two point samples. -/
def PointSample.merge (p q : PointSample) : PointSample :=
  ⟨mergeOpt p.x q.x, mergeOpt p.y q.y, mergeOpt p.r q.r, mergeOpt p.g q.g,
   mergeOpt p.b q.b, mergeOpt p.a q.a, mergeOpt p.w q.w⟩

/-- A parametric stroke, wrapping its evaluator function (the `_evaluator`
field of class `Stroke` in scratch.ts). -/
structure Stroke where
  evaluator : ℝ → PointSample

/-- A new empty stroke (`new Stroke()` in scratch.ts). -/
def emptyStroke : Stroke := ⟨fun _ => {}⟩

/-- `Stroke.evaluate` in scratch.ts: apply the evaluator. -/
def Stroke.evaluate (s : Stroke) (t : ℝ) : PointSample := s.evaluator t

/-- `Stroke.parametric` in scratch.ts. -/
def Stroke.parametric (s : Stroke) (f : ℝ → PointSample) : Stroke :=
  ⟨fun t => (s.evaluator t).merge (f t)⟩

/-- `Stroke.transform` in scratch.ts: the parent sample is passed to `f` and
`f`'s output is merged over it. -/
def Stroke.transform (s : Stroke) (f : PointSample → PointSample) : Stroke :=
  ⟨fun t => (s.evaluator t).merge (f (s.evaluator t))⟩

/-- `Stroke.slide` in scratch.ts: reparametrise the input. -/
def Stroke.slide (s : Stroke) (f : ℝ → ℝ) : Stroke :=
  ⟨fun t => s.evaluator (f t)⟩

/-- `Stroke.cut` in scratch.ts: `slide(t => t * (t1 - t0) + t0)`. -/
def Stroke.cut (s : Stroke) (t0 t1 : ℝ) : Stroke :=
  s.slide fun t => t * (t1 - t0) + t0

/-- `Stroke.fix` in scratch.ts: constant values merged over the parent. -/
def Stroke.fix (s : Stroke) (p : PointSample) : Stroke :=
  ⟨fun t => (s.evaluator t).merge p⟩

/-- One field of the bezier combinator: interpolated only when every control
point defines the field, otherwise left undefined (the field-intersection rule
of `Stroke.bezier` in scratch.ts). -/
def bezierField (t : ℝ) (os : List (Option ℝ)) : Option ℝ :=
  if os.all (fun o => o.isSome) then some (bezier t (os.filterMap id)) else none

/-- `Stroke.bezier` in scratch.ts, over a list of control points. The empty list
is an error case in the source (construction throws on `propsList[0]`). -/
def Stroke.bezier (s : Stroke) (points : List PointSample) : Stroke :=
  ⟨fun t =>
    (s.evaluator t).merge
      ⟨bezierField t (points.map (·.x)), bezierField t (points.map (·.y)),
       bezierField t (points.map (·.r)), bezierField t (points.map (·.g)),
       bezierField t (points.map (·.b)), bezierField t (points.map (·.a)),
       bezierField t (points.map (·.w))⟩⟩

/-- `Stroke.line` in scratch.ts: a two-point bezier. -/
def Stroke.line (s : Stroke) (p q : PointSample) : Stroke :=
  s.bezier [p, q]

/-- The angle convention of an ellipse (the `form` argument in scratch.ts). -/
inductive EllipseForm
  | parametric | polar | tangent

/-- The raw trigonometric parametrisation inside `Stroke.ellipse` in scratch.ts. -/
def ellipseFun (cx cy rx ry : ℝ) (ccw : Bool) : ℝ → PointSample := fun t =>
  { x := some (cx + rx * Real.cos ((if ccw then -t else t) * (2 * π))),
    y := some (cy + ry * Real.sin ((if ccw then -t else t) * (2 * π))) }

/-- `Stroke.ellipse` in scratch.ts. -/
def Stroke.ellipse (s : Stroke) (cx cy rx ry : ℝ) (start : ℝ) (ccw : Bool)
    (form : EllipseForm) : Stroke :=
  let result := s.parametric (ellipseFun cx cy rx ry ccw)
  let result2 :=
    match form with
    | .parametric => result
    | .polar => result.slide (slideEllipse (rx / ry))
    | .tangent => result.slide (slideEllipse (ry / rx))
  result2.slide fun t => t + start / (2 * π)

/-- `Stroke.circle` in scratch.ts: an ellipse with equal radii (parametric form). -/
def Stroke.circle (s : Stroke) (cx cy rr : ℝ) (start : ℝ) (ccw : Bool) : Stroke :=
  s.ellipse cx cy rr rr start ccw .parametric

/-- `Stroke.matrix` in scratch.ts: affine transform of position, passing the
sample through unchanged when x or y is undefined. -/
def Stroke.matrix (s : Stroke) (a b c d e f : ℝ) : Stroke :=
  ⟨fun t =>
    let p := s.evaluator t
    match p.x, p.y with
    | some px, some py =>
      { p with x := some (a * px + c * py + e), y := some (b * px + d * py + f) }
    | _, _ => p⟩

/-- `Stroke.translate` in scratch.ts: `matrix(1, 0, 0, 1, x, y)`. -/
def Stroke.translate (s : Stroke) (x y : ℝ) : Stroke :=
  s.matrix 1 0 0 1 x y

/-- `Stroke.scale` in scratch.ts: `matrix(sx, 0, 0, sy, x - sx * x, y - sy * y)`. -/
def Stroke.scale (s : Stroke) (sx sy x y : ℝ) : Stroke :=
  s.matrix sx 0 0 sy (x - sx * x) (y - sy * y)

/-- `Stroke.rotate` in scratch.ts. -/
def Stroke.rotate (s : Stroke) (angle x y : ℝ) : Stroke :=
  s.matrix (Real.cos angle) (Real.sin angle) (-Real.sin angle) (Real.cos angle)
    (-Real.cos angle * x + Real.sin angle * y + x)
    (-Real.sin angle * x + -Real.cos angle * y + y)

/-- `Stroke.sequence` in scratch.ts, as a total function: the parameter is
scaled by the number of strokes, the interval index is the clamped floor, and
the selected stroke is evaluated at the locally rebased parameter. An array
element access that would be `undefined` in JS (and throw on `._evaluator`)
yields `none`. -/
def Stroke.sequence (strokes : List Stroke) (t : ℝ) : Option PointSample :=
  let t2 : ℝ := t * strokes.length
  let index : ℝ := clampB ((⌊t2⌋ : ℤ) : ℝ) 0 ((strokes.length : ℝ) - 1)
  if index < 0 then none
  else (strokes[(⌊index⌋).toNat]?).map fun s => s.evaluator (t2 - index)

/-- A fully resolved line endpoint, from `LinePoint` in scratch.ts. -/
structure LinePoint where
  x : ℝ
  y : ℝ
  r : ℝ
  g : ℝ
  b : ℝ
  a : ℝ
  w : ℝ

/-- `Object.assign({}, default, sample)`: resolve a point sample against the
context's default point (`Context.draw` in scratch.ts). -/
def resolve (d : LinePoint) (p : PointSample) : LinePoint :=
  ⟨p.x.getD d.x, p.y.getD d.y, p.r.getD d.r, p.g.getD d.g,
   p.b.getD d.b, p.a.getD d.a, p.w.getD d.w⟩

/-- The list of line segments rasterised for one stroke by `Context.draw` in
scratch.ts: the synthesized zero-length start cap, then one segment per
sampling step `t = 1 .. segmentation`. -/
def segmentsOf (d : LinePoint) (s : Stroke) (segmentation : ℕ) :
    List (LinePoint × LinePoint) :=
  let pt := fun (t : ℝ) => resolve d (s.evaluate t)
  (pt 0, pt 0) ::
    (List.range segmentation).map fun k =>
      (pt ((k : ℝ) / (segmentation : ℝ)), pt (((k : ℝ) + 1) / (segmentation : ℝ)))

/-- The projection parameter computed by `drawLinePixel` in scratch.ts: the
closest point on the line to the pixel, overridden to 0 when `dx = 0` (in
particular when the start and end points coincide). -/
def projT (p q : LinePoint) (x y : ℝ) : ℝ :=
  let dx := q.x - p.x
  let dy := q.y - p.y
  let t := (dx * (x - p.x) + dy * (y - p.y)) / (dx ^ 2 + dy ^ 2)
  if dx = 0 then 0 else t

/-- One RGBA pixel of the image buffer, channels on the 0..255 byte scale. -/
structure Pixel where
  r : ℝ
  g : ℝ
  b : ℝ
  a : ℝ

/-- The image buffer as a total function from coordinates to pixels. -/
abbrev Image := ℤ → ℤ → Pixel

/-- Update the buffer at one coordinate. -/
def setPx (img : Image) (x y : ℤ) (p : Pixel) : Image :=
  fun i j => if i = x ∧ j = y then p else img i j

/-- `drawPixel` in scratch.ts: bounds check, channel clamping, then the
three-way compositing rule on the coverage `blend` and the old alpha. -/
def drawPixel (w h : ℤ) (img : Image) (x y : ℤ) (r g b a blend : ℝ) : Image :=
  if x < 0 ∨ w ≤ x ∨ y < 0 ∨ h ≤ y then img
  else
    let r2 : ℝ := ((⌊clamp01 r * 255⌋ : ℤ) : ℝ)
    let g2 : ℝ := ((⌊clamp01 g * 255⌋ : ℤ) : ℝ)
    let b2 : ℝ := ((⌊clamp01 b * 255⌋ : ℤ) : ℝ)
    let a2 : ℝ := clamp01 a
    let old := img x y
    let oldA : ℝ := old.a / 255
    if oldA ≤ blend then
      setPx img x y ⟨r2, g2, b2, ((⌊a2 * blend * 255⌋ : ℤ) : ℝ)⟩
    else if oldA = 1 then
      let a3 : ℝ := lerp blend oldA a2
      setPx img x y
        ⟨lerp blend old.r (r2 * a3) / a3,
         lerp blend old.g (g2 * a3) / a3,
         lerp blend old.b (b2 * a3) / a3,
         ((⌊a3 * 255⌋ : ℤ) : ℝ)⟩
    else img

/-- Modelled from the spec: the standard source-over blend of one colour
channel, weighted by the coverage `blend`, performed in premultiplied space
(each colour premultiplied by its own alpha) and then unpremultiplied by the
resulting alpha. Stated for comparison against the code's `drawPixel`. -/
def specSourceOverChannel (oldC oldA c a blend : ℝ) : ℝ :=
  lerp blend (oldC * oldA) (c * a) / lerp blend oldA a

/-! ### Helper lemmas -/

theorem PointSample.get_merge (p q : PointSample) (fld : SampleField) :
    (p.merge q).get fld = mergeOpt (p.get fld) (q.get fld) := by
  cases fld <;> rfl

theorem clamp01_eq_self {t : ℝ} (h0 : 0 ≤ t) (h1 : t ≤ 1) : clamp01 t = t := by
  rw [clamp01, clampB, if_neg (by norm_num), min_eq_left h1, max_eq_left h0]

theorem floor_half : ⌊(1 / 2 : ℝ)⌋ = 0 := by
  rw [Int.floor_eq_iff]; norm_num

theorem floor_three_halves : ⌊(3 / 2 : ℝ)⌋ = 1 := by
  rw [Int.floor_eq_iff]; norm_num

theorem floor_255 : ⌊(255 : ℝ)⌋ = 255 := by
  rw [Int.floor_eq_iff]; norm_num

/-! ### Claim theorems -/

/-- C6: `cut` is the affine reparametrization mapping the local parameter
interval [0,1] onto [t0,t1] by linear interpolation: for every curve `c` and
all reals `t0`, `t1`, `t`, `c.cut(t0,t1).evaluate(t) = c.evaluate((1-t)*t0 + t*t1)`;
in particular `c.cut(0.25,0.75).evaluate(0) = c.evaluate(0.25)` and
`c.cut(0.25,0.75).evaluate(1) = c.evaluate(0.75)`. -/
theorem cut_affine_reparam (c : Stroke) (t0 t1 t : ℝ) :
    (c.cut t0 t1).evaluate t = c.evaluate ((1 - t) * t0 + t * t1) ∧
    (c.cut (1/4) (3/4)).evaluate 0 = c.evaluate (1/4) ∧
    (c.cut (1/4) (3/4)).evaluate 1 = c.evaluate (3/4) := by
  refine ⟨?_, ?_, ?_⟩
  · show c.evaluator (t * (t1 - t0) + t0) = c.evaluator ((1 - t) * t0 + t * t1)
    congr 1
    ring
  · show c.evaluator (0 * ((3:ℝ)/4 - 1/4) + 1/4) = c.evaluator (1/4)
    norm_num
  · show c.evaluator (1 * ((3:ℝ)/4 - 1/4) + 1/4) = c.evaluator (3/4)
    norm_num

/-- C9: for every pixel coordinate outside the buffer bounds and every colour,
alpha and coverage value, `drawPixel` returns before any write and leaves the
image buffer entirely unchanged. -/
theorem drawPixel_out_of_bounds (w h : ℤ) (img : Image) (x y : ℤ)
    (r g b a blend : ℝ) (hout : x < 0 ∨ w ≤ x ∨ y < 0 ∨ h ≤ y) :
    drawPixel w h img x y r g b a blend = img := by
  rw [drawPixel, if_pos hout]

theorem drawPixel_out_of_bounds_witness :
    drawPixel 4 4 (fun _ _ => ⟨0, 0, 0, 0⟩) (-1) 2 1 1 1 1 1 =
      (fun _ _ => ⟨0, 0, 0, 0⟩) :=
  drawPixel_out_of_bounds 4 4 _ (-1) 2 1 1 1 1 1 (Or.inl (by norm_num))

/-- C10: for the empty curve list, the dispatch index
`clamp(floor(t*0), 0, -1)` resolves to 0 (clamp swaps the inverted bounds),
element 0 of the empty stroke array is then accessed, and in the total
embedding `Stroke.sequence [] t` returns `none` (the concrete program throws)
for every real `t`. -/
theorem sequence_empty (t : ℝ) :
    clampB ((⌊t * (([] : List Stroke).length : ℝ)⌋ : ℤ) : ℝ) 0
      ((([] : List Stroke).length : ℝ) - 1) = 0 ∧
    Stroke.sequence [] t = none := by
  have hfl : (⌊t * (([] : List Stroke).length : ℝ)⌋ : ℤ) = 0 := by
    simp
  constructor
  · rw [hfl, clampB, if_pos (by norm_num)]
    norm_num
  · rw [Stroke.sequence]
    simp only [hfl]
    rw [clampB]
    norm_num

/-- C3: for every curve, every real `t` and each of the merging combinators
`parametric`, `transform` and `fix`, a field of the overriding record replaces
the parent's field exactly when the overriding record defines that field, and
every field the overriding record leaves undefined falls through to the
parent's value unchanged. -/
theorem merge_precedence (s : Stroke) (f : ℝ → PointSample)
    (g : PointSample → PointSample) (p : PointSample) (t : ℝ) (fld : SampleField) :
    ((∀ v : ℝ, (f t).get fld = some v →
        ((s.parametric f).evaluate t).get fld = some v) ∧
      ((f t).get fld = none →
        ((s.parametric f).evaluate t).get fld = (s.evaluate t).get fld)) ∧
    ((∀ v : ℝ, (g (s.evaluate t)).get fld = some v →
        ((s.transform g).evaluate t).get fld = some v) ∧
      ((g (s.evaluate t)).get fld = none →
        ((s.transform g).evaluate t).get fld = (s.evaluate t).get fld)) ∧
    ((∀ v : ℝ, p.get fld = some v → ((s.fix p).evaluate t).get fld = some v) ∧
      (p.get fld = none →
        ((s.fix p).evaluate t).get fld = (s.evaluate t).get fld)) := by
  refine ⟨⟨?_, ?_⟩, ⟨?_, ?_⟩, ⟨?_, ?_⟩⟩
  · intro v hv
    show ((s.evaluator t).merge (f t)).get fld = some v
    rw [PointSample.get_merge, hv]
    rfl
  · intro hv
    show ((s.evaluator t).merge (f t)).get fld = (s.evaluator t).get fld
    rw [PointSample.get_merge, hv]
    rfl
  · intro v hv
    show ((s.evaluate t).merge (g (s.evaluate t))).get fld = some v
    rw [PointSample.get_merge, hv]
    rfl
  · intro hv
    show ((s.evaluate t).merge (g (s.evaluate t))).get fld = (s.evaluate t).get fld
    rw [PointSample.get_merge, hv]
    rfl
  · intro v hv
    show ((s.evaluator t).merge p).get fld = some v
    rw [PointSample.get_merge, hv]
    rfl
  · intro hv
    show ((s.evaluator t).merge p).get fld = (s.evaluator t).get fld
    rw [PointSample.get_merge, hv]
    rfl

theorem merge_precedence_witness :
    ((emptyStroke.parametric fun _ => { x := some 5 }).evaluate 0).get .x = some 5 :=
  (merge_precedence emptyStroke (fun _ => { x := some 5 }) id {} 0 .x).1.1 5 rfl

theorem matrix_parts (s : Stroke) (t : ℝ) (a b c d e f : ℝ) :
    (((s.evaluate t).x = none ∨ (s.evaluate t).y = none) →
      (s.matrix a b c d e f).evaluate t = s.evaluate t) ∧
    (((s.matrix a b c d e f).evaluate t).r = (s.evaluate t).r ∧
     ((s.matrix a b c d e f).evaluate t).g = (s.evaluate t).g ∧
     ((s.matrix a b c d e f).evaluate t).b = (s.evaluate t).b ∧
     ((s.matrix a b c d e f).evaluate t).a = (s.evaluate t).a ∧
     ((s.matrix a b c d e f).evaluate t).w = (s.evaluate t).w) ∧
    (∀ px py : ℝ, (s.evaluate t).x = some px → (s.evaluate t).y = some py →
      ((s.matrix a b c d e f).evaluate t).x = some (a * px + c * py + e) ∧
      ((s.matrix a b c d e f).evaluate t).y = some (b * px + d * py + f)) := by
  cases hx : (s.evaluator t).x <;> cases hy : (s.evaluator t).y <;>
    simp only [Stroke.evaluate, Stroke.matrix, hx, hy] <;> simp_all

/-- C7: for every curve `s`, every real `t`, and each affine transform
combinator `matrix`, `translate`, `scale`, `rotate`: when the parent sample
leaves x or y undefined the transformed curve's sample equals the parent's
sample unchanged; otherwise the non-positional fields r, g, b, a, w are left
untouched and only x and y are replaced by their image under the respective
affine map. -/
theorem affine_transform_fields (s : Stroke) (t : ℝ) :
    (∀ a b c d e f : ℝ,
      (((s.evaluate t).x = none ∨ (s.evaluate t).y = none) →
        (s.matrix a b c d e f).evaluate t = s.evaluate t) ∧
      (((s.matrix a b c d e f).evaluate t).r = (s.evaluate t).r ∧
       ((s.matrix a b c d e f).evaluate t).g = (s.evaluate t).g ∧
       ((s.matrix a b c d e f).evaluate t).b = (s.evaluate t).b ∧
       ((s.matrix a b c d e f).evaluate t).a = (s.evaluate t).a ∧
       ((s.matrix a b c d e f).evaluate t).w = (s.evaluate t).w) ∧
      (∀ px py : ℝ, (s.evaluate t).x = some px → (s.evaluate t).y = some py →
        ((s.matrix a b c d e f).evaluate t).x = some (a * px + c * py + e) ∧
        ((s.matrix a b c d e f).evaluate t).y = some (b * px + d * py + f))) ∧
    (∀ dx dy : ℝ,
      (((s.evaluate t).x = none ∨ (s.evaluate t).y = none) →
        (s.translate dx dy).evaluate t = s.evaluate t) ∧
      (((s.translate dx dy).evaluate t).r = (s.evaluate t).r ∧
       ((s.translate dx dy).evaluate t).g = (s.evaluate t).g ∧
       ((s.translate dx dy).evaluate t).b = (s.evaluate t).b ∧
       ((s.translate dx dy).evaluate t).a = (s.evaluate t).a ∧
       ((s.translate dx dy).evaluate t).w = (s.evaluate t).w) ∧
      (∀ px py : ℝ, (s.evaluate t).x = some px → (s.evaluate t).y = some py →
        ((s.translate dx dy).evaluate t).x = some (px + dx) ∧
        ((s.translate dx dy).evaluate t).y = some (py + dy))) ∧
    (∀ sx sy cx cy : ℝ,
      (((s.evaluate t).x = none ∨ (s.evaluate t).y = none) →
        (s.scale sx sy cx cy).evaluate t = s.evaluate t) ∧
      (((s.scale sx sy cx cy).evaluate t).r = (s.evaluate t).r ∧
       ((s.scale sx sy cx cy).evaluate t).g = (s.evaluate t).g ∧
       ((s.scale sx sy cx cy).evaluate t).b = (s.evaluate t).b ∧
       ((s.scale sx sy cx cy).evaluate t).a = (s.evaluate t).a ∧
       ((s.scale sx sy cx cy).evaluate t).w = (s.evaluate t).w) ∧
      (∀ px py : ℝ, (s.evaluate t).x = some px → (s.evaluate t).y = some py →
        ((s.scale sx sy cx cy).evaluate t).x = some (sx * px + (cx - sx * cx)) ∧
        ((s.scale sx sy cx cy).evaluate t).y = some (sy * py + (cy - sy * cy)))) ∧
    (∀ angle cx cy : ℝ,
      (((s.evaluate t).x = none ∨ (s.evaluate t).y = none) →
        (s.rotate angle cx cy).evaluate t = s.evaluate t) ∧
      (((s.rotate angle cx cy).evaluate t).r = (s.evaluate t).r ∧
       ((s.rotate angle cx cy).evaluate t).g = (s.evaluate t).g ∧
       ((s.rotate angle cx cy).evaluate t).b = (s.evaluate t).b ∧
       ((s.rotate angle cx cy).evaluate t).a = (s.evaluate t).a ∧
       ((s.rotate angle cx cy).evaluate t).w = (s.evaluate t).w) ∧
      (∀ px py : ℝ, (s.evaluate t).x = some px → (s.evaluate t).y = some py →
        ((s.rotate angle cx cy).evaluate t).x =
          some (Real.cos angle * px - Real.sin angle * py +
            (-(Real.cos angle) * cx + Real.sin angle * cy + cx)) ∧
        ((s.rotate angle cx cy).evaluate t).y =
          some (Real.sin angle * px + Real.cos angle * py +
            (-(Real.sin angle) * cx + -(Real.cos angle) * cy + cy)))) := by
  refine ⟨fun a b c d e f => matrix_parts s t a b c d e f, ?_, ?_, ?_⟩
  · intro dx dy
    obtain ⟨h1, h2, h3⟩ := matrix_parts s t 1 0 0 1 dx dy
    refine ⟨h1, h2, ?_⟩
    intro px py hpx hpy
    obtain ⟨hhx, hhy⟩ := h3 px py hpx hpy
    constructor
    · rw [show s.translate dx dy = s.matrix 1 0 0 1 dx dy from rfl, hhx]
      congr 1
      ring
    · rw [show s.translate dx dy = s.matrix 1 0 0 1 dx dy from rfl, hhy]
      congr 1
      ring
  · intro sx sy cx cy
    obtain ⟨h1, h2, h3⟩ :=
      matrix_parts s t sx 0 0 sy (cx - sx * cx) (cy - sy * cy)
    refine ⟨h1, h2, ?_⟩
    intro px py hpx hpy
    obtain ⟨hhx, hhy⟩ := h3 px py hpx hpy
    constructor
    · rw [show s.scale sx sy cx cy =
          s.matrix sx 0 0 sy (cx - sx * cx) (cy - sy * cy) from rfl, hhx]
      congr 1
      ring
    · rw [show s.scale sx sy cx cy =
          s.matrix sx 0 0 sy (cx - sx * cx) (cy - sy * cy) from rfl, hhy]
      congr 1
      ring
  · intro angle cx cy
    obtain ⟨h1, h2, h3⟩ :=
      matrix_parts s t (Real.cos angle) (Real.sin angle) (-Real.sin angle)
        (Real.cos angle) (-Real.cos angle * cx + Real.sin angle * cy + cx)
        (-Real.sin angle * cx + -Real.cos angle * cy + cy)
    refine ⟨h1, h2, ?_⟩
    intro px py hpx hpy
    obtain ⟨hhx, hhy⟩ := h3 px py hpx hpy
    constructor
    · rw [show s.rotate angle cx cy =
          s.matrix (Real.cos angle) (Real.sin angle) (-Real.sin angle)
            (Real.cos angle) (-Real.cos angle * cx + Real.sin angle * cy + cx)
            (-Real.sin angle * cx + -Real.cos angle * cy + cy) from rfl, hhx]
      congr 1
      ring
    · rw [show s.rotate angle cx cy =
          s.matrix (Real.cos angle) (Real.sin angle) (-Real.sin angle)
            (Real.cos angle) (-Real.cos angle * cx + Real.sin angle * cy + cx)
            (-Real.sin angle * cx + -Real.cos angle * cy + cy) from rfl, hhy]

theorem affine_transform_fields_witness :
    (((emptyStroke.fix { x := some 2, y := some 3 }).translate 10 20).evaluate 0).x =
      some (2 + 10) :=
  (((affine_transform_fields (emptyStroke.fix { x := some 2, y := some 3 }) 0).2.1
    10 20).2.2 2 3 rfl rfl).1

theorem get_bezier (s : Stroke) (points : List PointSample) (t : ℝ)
    (fld : SampleField) :
    ((s.bezier points).evaluate t).get fld =
      mergeOpt ((s.evaluate t).get fld)
        (bezierField t (points.map fun p => p.get fld)) := by
  cases fld <;> rfl

/-- C4: for every parent curve, non-empty control point list, field and real
`t`, the curve built by `bezier` defines the field as the recursive De
Casteljau interpolation of the control point values exactly when the field is
present on every control point, and a field absent from at least one control
point passes through from the parent curve untouched; the scalar recursion
returns a single value as is and otherwise interpolates between the bezier of
all values but the last and all values but the first, with
`lerp(t,a,b) = (1-t)a + tb` unclamped. -/
theorem bezier_field_intersection (s : Stroke) (points : List PointSample)
    (t : ℝ) (fld : SampleField) (h : points ≠ []) :
    ((∀ p ∈ points, (p.get fld).isSome = true) →
      ((s.bezier points).evaluate t).get fld =
        some (bezier t (points.filterMap fun p => p.get fld))) ∧
    ((∃ p ∈ points, p.get fld = none) →
      ((s.bezier points).evaluate t).get fld = (s.evaluate t).get fld) ∧
    (∀ v : ℝ, bezier t [v] = v) ∧
    (∀ (u v : ℝ) (rest : List ℝ),
      bezier t (u :: v :: rest) =
        lerp t (bezier t ((u :: v :: rest).dropLast)) (bezier t (v :: rest))) ∧
    (∀ u v : ℝ, lerp t u v = (1 - t) * u + t * v) := by
  refine ⟨?_, ?_, ?_, ?_, fun u v => rfl⟩
  · intro hall
    rw [get_bezier]
    have hsome : (points.map fun p => p.get fld).all (fun o => o.isSome) = true := by
      rw [List.all_eq_true]
      intro o ho
      rw [List.mem_map] at ho
      obtain ⟨p, hp, rfl⟩ := ho
      exact hall p hp
    rw [bezierField, if_pos hsome, List.filterMap_map]
    rfl
  · rintro ⟨p0, hp0, hnone⟩
    rw [get_bezier]
    have hfalse : ¬((points.map fun p => p.get fld).all (fun o => o.isSome) = true) := by
      rw [List.all_eq_true]
      push_neg
      exact ⟨p0.get fld, List.mem_map.mpr ⟨p0, hp0, rfl⟩, by rw [hnone]; simp⟩
    rw [bezierField, if_neg hfalse]
    rfl
  · intro v
    simp [bezier]
  · intro u v rest
    simp only [bezier]

theorem bezier_field_intersection_witness :
    ((emptyStroke.bezier [{ x := some 1 }, { x := some 3 }]).evaluate (1/2)).get .x =
      some (bezier (1/2)
        (([{ x := some 1 }, { x := some 3 }] : List PointSample).filterMap
          fun p => p.get .x)) :=
  (bezier_field_intersection emptyStroke _ (1/2) .x (by simp)).1 (by
    intro p hp
    rcases List.mem_cons.mp hp with rfl | hp2
    · rfl
    · rcases List.mem_cons.mp hp2 with rfl | h2
      · rfl
      · exact absurd h2 (List.not_mem_nil p))

/-- C5: for every non-empty list of N curves and every real `t`,
`Stroke.sequence` evaluates at `t` to `curves[i].evaluate(N*t - i)` where
`i = floor(N*t)` clamped into [0, N-1]; in particular
`sequence([A,B]).evaluate(0.25) = A.evaluate(0.5)` and
`sequence([A,B]).evaluate(0.75) = B.evaluate(0.5)`, and for `t` outside [0,1]
the interval index is clamped rather than failing. -/
theorem sequence_dispatch (strokes : List Stroke) (t : ℝ) (h : strokes ≠ []) :
    Stroke.sequence strokes t =
      some ((strokes.getD
          (max (min ⌊t * (strokes.length : ℝ)⌋ ((strokes.length : ℤ) - 1)) 0).toNat
          emptyStroke).evaluate
        (t * (strokes.length : ℝ) -
          ((max (min ⌊t * (strokes.length : ℝ)⌋ ((strokes.length : ℤ) - 1)) 0 : ℤ) : ℝ))) ∧
    (∀ A B : Stroke,
      Stroke.sequence [A, B] (1/4) = some (A.evaluate (1/2)) ∧
      Stroke.sequence [A, B] (3/4) = some (B.evaluate (1/2))) := by
  constructor
  · have hn : 0 < strokes.length := List.length_pos.mpr h
    set F : ℤ := ⌊t * (strokes.length : ℝ)⌋ with hF
    set i : ℤ := max (min F ((strokes.length : ℤ) - 1)) 0 with hi
    have h0i : 0 ≤ i := le_max_right _ _
    have hin : i ≤ (strokes.length : ℤ) - 1 :=
      max_le (min_le_right _ _) (by omega)
    have hilt : i.toNat < strokes.length := by omega
    have hclamp : clampB ((F : ℤ) : ℝ) 0 ((strokes.length : ℝ) - 1) = ((i : ℤ) : ℝ) := by
      rw [clampB, if_neg (not_lt.mpr (sub_nonneg.mpr (by exact_mod_cast hn)))]
      rw [hi]
      push_cast
      rfl
    rw [Stroke.sequence]
    simp only [← hF, hclamp]
    rw [if_neg (not_lt.mpr (by exact_mod_cast h0i)), Int.floor_intCast]
    rw [List.getElem?_eq_getElem hilt, Option.map_some']
    rw [List.getD_eq_getElem?_getD, List.getElem?_eq_getElem hilt]
    rfl
  · intro A B
    constructor
    · have hfl : ⌊(1 / 4 : ℝ) * (([A, B] : List Stroke).length : ℝ)⌋ = 0 := by
        norm_num
      rw [Stroke.sequence]
      simp only [hfl]
      rw [clampB]
      norm_num
      rfl
    · have hfl : ⌊(3 / 4 : ℝ) * (([A, B] : List Stroke).length : ℝ)⌋ = 1 := by
        norm_num
      rw [Stroke.sequence]
      simp only [hfl]
      rw [clampB]
      norm_num
      rfl

theorem sequence_dispatch_witness :
    Stroke.sequence [emptyStroke, emptyStroke] (1/4) =
      some (emptyStroke.evaluate (1/2)) :=
  ((sequence_dispatch [emptyStroke, emptyStroke] (1/4) (by simp)).2
    emptyStroke emptyStroke).1

/-- C8: out-of-domain numeric input raises no exception in the total
embedding and degrades to degenerate output: when a segment's start and end
points coincide the projection parameter is forced to 0; the projection
divisor is nonzero whenever the division's result is used (`dx ≠ 0`);
`ellipse`/`circle` evaluation yields a defined (possibly degenerate) position
for arbitrary radii, including negative ones; `cut` accepts inverted bounds;
and a zero segmentation count yields only the synthesized start-cap segment. -/
theorem out_of_domain_safety :
    (∀ p q : LinePoint, ∀ x y : ℝ, p = q → projT p q x y = 0) ∧
    (∀ p q : LinePoint, q.x - p.x ≠ 0 → (q.x - p.x) ^ 2 + (q.y - p.y) ^ 2 ≠ 0) ∧
    (∀ (s : Stroke) (cx cy rx ry start : ℝ) (ccw : Bool) (form : EllipseForm)
        (t : ℝ),
      ∃ px py : ℝ,
        ((s.ellipse cx cy rx ry start ccw form).evaluate t).x = some px ∧
        ((s.ellipse cx cy rx ry start ccw form).evaluate t).y = some py) ∧
    (∀ (s : Stroke) (cx cy rr start : ℝ) (ccw : Bool) (t : ℝ),
      ∃ px py : ℝ,
        ((s.circle cx cy rr start ccw).evaluate t).x = some px ∧
        ((s.circle cx cy rr start ccw).evaluate t).y = some py) ∧
    (∀ (c : Stroke) (t0 t1 t : ℝ),
      (c.cut t0 t1).evaluate t = c.evaluate (t * (t1 - t0) + t0)) ∧
    (∀ (d : LinePoint) (s : Stroke),
      segmentsOf d s 0 = [(resolve d (s.evaluate 0), resolve d (s.evaluate 0))]) := by
  refine ⟨?_, ?_, ?_, ?_, fun c t0 t1 t => rfl, ?_⟩
  · intro p q x y hpq
    subst hpq
    simp [projT]
  · intro p q hdx
    exact (add_pos_of_pos_of_nonneg (sq_pos_of_ne_zero hdx) (sq_nonneg _)).ne'
  · intro s cx cy rx ry start ccw form t
    cases form <;> exact ⟨_, _, rfl, rfl⟩
  · intro s cx cy rr start ccw t
    exact ⟨_, _, rfl, rfl⟩
  · intro d s
    simp [segmentsOf]

theorem out_of_domain_safety_witness :
    projT ⟨1, 2, 0, 0, 0, 1, 1⟩ ⟨1, 2, 0, 0, 0, 1, 1⟩ 5 7 = 0 :=
  out_of_domain_safety.1 ⟨1, 2, 0, 0, 0, 1, 1⟩ ⟨1, 2, 0, 0, 0, 1, 1⟩ 5 7 rfl

/-- C1 (amended): for in-bounds pixel coordinates, with unit-range alpha, the
compositing rule of `drawPixel` is: when `blend ≥ oldA` the new pixel fully
replaces the old one with stored alpha `⌊a * blend * 255⌋` (the byte encoding
of `a * blend`); when `blend < oldA` and `oldA = 1` the stored alpha becomes
`lerp(blend, 1, a)` and each colour channel becomes
`lerp(blend, old, new * outA) / outA` — the incoming channel is premultiplied
by the resulting alpha `outA`, not by its own alpha, before the
blend-weighted interpolation (this is not textbook source-over, see the
counterexample); when `blend < oldA` and `oldA < 1` the pixel is left
completely unchanged. -/
theorem drawPixel_compositing (w h : ℤ) (img : Image) (x y : ℤ)
    (r g b a blend : ℝ) (hx0 : 0 ≤ x) (hxw : x < w) (hy0 : 0 ≤ y) (hyh : y < h)
    (ha0 : 0 ≤ a) (ha1 : a ≤ 1) :
    ((img x y).a / 255 ≤ blend →
      drawPixel w h img x y r g b a blend =
        setPx img x y
          ⟨((⌊clamp01 r * 255⌋ : ℤ) : ℝ), ((⌊clamp01 g * 255⌋ : ℤ) : ℝ),
           ((⌊clamp01 b * 255⌋ : ℤ) : ℝ), ((⌊a * blend * 255⌋ : ℤ) : ℝ)⟩) ∧
    (blend < (img x y).a / 255 → (img x y).a / 255 = 1 →
      drawPixel w h img x y r g b a blend =
        setPx img x y
          ⟨lerp blend (img x y).r (((⌊clamp01 r * 255⌋ : ℤ) : ℝ) * lerp blend 1 a) /
             lerp blend 1 a,
           lerp blend (img x y).g (((⌊clamp01 g * 255⌋ : ℤ) : ℝ) * lerp blend 1 a) /
             lerp blend 1 a,
           lerp blend (img x y).b (((⌊clamp01 b * 255⌋ : ℤ) : ℝ) * lerp blend 1 a) /
             lerp blend 1 a,
           ((⌊lerp blend 1 a * 255⌋ : ℤ) : ℝ)⟩) ∧
    (blend < (img x y).a / 255 → (img x y).a / 255 ≠ 1 →
      drawPixel w h img x y r g b a blend = img) := by
  have hin : ¬(x < 0 ∨ w ≤ x ∨ y < 0 ∨ h ≤ y) := by omega
  have hca : clamp01 a = a := clamp01_eq_self ha0 ha1
  refine ⟨?_, ?_, ?_⟩
  · intro h1
    simp only [drawPixel, hca]
    rw [if_neg hin, if_pos h1]
  · intro h1 h2
    simp only [drawPixel, hca]
    rw [if_neg hin, if_neg (not_le.mpr h1), if_pos h2, h2]
  · intro h1 h2
    simp only [drawPixel]
    rw [if_neg hin, if_neg (not_le.mpr h1), if_neg h2]

theorem drawPixel_compositing_witness :
    drawPixel 2 2 (fun _ _ => ⟨10, 10, 10, 100⟩) 0 0 (1/2) (1/2) (1/2) 1 1 =
      setPx (fun _ _ => ⟨10, 10, 10, 100⟩) 0 0
        ⟨((⌊clamp01 (1/2 : ℝ) * 255⌋ : ℤ) : ℝ), ((⌊clamp01 (1/2 : ℝ) * 255⌋ : ℤ) : ℝ),
         ((⌊clamp01 (1/2 : ℝ) * 255⌋ : ℤ) : ℝ), ((⌊(1 : ℝ) * 1 * 255⌋ : ℤ) : ℝ)⟩ :=
  (drawPixel_compositing 2 2 _ 0 0 (1/2) (1/2) (1/2) 1 1 (by norm_num)
    (by norm_num) (by norm_num) (by norm_num) (by norm_num) (by norm_num)).1
    (by norm_num)

theorem neg_one_lt_jsModOne (t : ℝ) : -1 < jsModOne t := by
  rw [jsModOne]
  split
  · exact lt_of_lt_of_le (by norm_num) (Int.fract_nonneg t)
  · have := Int.fract_lt_one (-t)
    linarith

theorem jsModOne_lt_one (t : ℝ) : jsModOne t < 1 := by
  rw [jsModOne]
  split
  · exact Int.fract_lt_one t
  · have := Int.fract_nonneg (-t)
    linarith

theorem normT_eq_fract (t : ℝ) :
    normT t = Int.fract (jsModOne t + 1.5) - 0.5 := by
  have h := neg_one_lt_jsModOne t
  rw [normT, show jsModOne (jsModOne t + 1.5) = Int.fract (jsModOne t + 1.5) from by
    rw [jsModOne]
    exact if_pos (by norm_num; linarith)]

theorem normT_mem_Ico (t : ℝ) : normT t ∈ Set.Ico (-(1/2) : ℝ) (1/2) := by
  rw [normT_eq_fract, Set.mem_Ico]
  constructor
  · have := Int.fract_nonneg (jsModOne t + 1.5)
    norm_num
  · have := Int.fract_lt_one (jsModOne t + 1.5)
    norm_num
    linarith

theorem normT_mod_one (t : ℝ) : ∃ k : ℤ, t - normT t = (k : ℝ) := by
  rw [normT_eq_fract]
  have h1 : ∃ k1 : ℤ, jsModOne t = t - (k1 : ℝ) := by
    rw [jsModOne]
    split
    · exact ⟨⌊t⌋, by rw [Int.fract]⟩
    · exact ⟨-⌊-t⌋, by rw [Int.fract]; push_cast; ring⟩
  obtain ⟨k1, hk1⟩ := h1
  refine ⟨k1 - 1 + ⌊jsModOne t + 1.5⌋, ?_⟩
  rw [Int.fract, hk1]
  push_cast
  ring

theorem normT_eq_self {t : ℝ} (h0 : -(1/2) ≤ t) (h1 : t < 1/2) : normT t = t := by
  rw [normT_eq_fract]
  have hj : jsModOne t = t := by
    rcases le_or_lt 0 t with h | h
    · rw [jsModOne, if_pos h, Int.fract_eq_self.mpr ⟨h, by linarith⟩]
    · rw [jsModOne, if_neg (not_le.mpr h),
        Int.fract_eq_self.mpr ⟨by linarith, by linarith⟩, neg_neg]
  rw [hj]
  have hfr : Int.fract (t + 1.5) = t + 0.5 := by
    have h2 : t + 1.5 = (t + 0.5) + 1 := by ring
    rw [h2, Int.fract_add_one, Int.fract_eq_self.mpr ⟨by linarith, by norm_num; linarith⟩]
  rw [hfr]
  ring

/-- C2 counterexample: the normalisation step of slideEllipse maps t = 1/2 to
the value -1/2, which lies outside the interval (-0.25, 0.75) into which the
claim says t is normalised. -/
theorem slideEllipse_norm_counterexample :
    normT (1/2) = -(1/2) ∧ normT (1/2) ∉ Set.Ioo (-(0.25) : ℝ) 0.75 := by
  have h : normT (1/2) = -(1/2) := by
    rw [normT_eq_fract]
    have hj : jsModOne (1/2 : ℝ) = 1/2 := by
      rw [jsModOne, if_pos (by norm_num),
        Int.fract_eq_self.mpr ⟨by norm_num, by norm_num⟩]
    rw [hj, show (1/2 : ℝ) + 1.5 = ((2:ℤ) : ℝ) by norm_num, Int.fract_intCast]
    norm_num
  refine ⟨h, ?_⟩
  rw [h]
  norm_num [Set.mem_Ioo]

/-- C2 (amended): the polar form of ellipse uses ratio rx/ry and the tangent
form the inverted ratio ry/rx; the reparametrization normalizes t into
[-0.5, 0.5) (a representative of t modulo 1, not into (-0.25, 0.75) as the
claim states), computes arctan(tan(2*pi*t2)*ratio)/(2*pi), and adds the
offset 0.5*sign(t2) exactly when |t2| > 0.25; for a positive ratio the
resulting angle function is continuous across the quadrant boundary at
t = 1/4 in the sense that both one-sided limits there equal 1/4. -/
theorem slideEllipse_reparam (ra t : ℝ) :
    slideEllipse ra t =
      Real.arctan (Real.tan (normT t * (2 * π)) * ra) / (2 * π) +
        (if 1/4 < |normT t| then 1/2 * Real.sign (normT t) else 0) ∧
    normT t ∈ Set.Ico (-(1/2) : ℝ) (1/2) ∧
    (∃ k : ℤ, t - normT t = (k : ℝ)) ∧
    (∀ (s : Stroke) (cx cy rx ry start : ℝ) (ccw : Bool),
      (s.ellipse cx cy rx ry start ccw EllipseForm.polar).evaluate t =
        (s.parametric (ellipseFun cx cy rx ry ccw)).evaluate
          (slideEllipse (rx / ry) (t + start / (2 * π))) ∧
      (s.ellipse cx cy rx ry start ccw EllipseForm.tangent).evaluate t =
        (s.parametric (ellipseFun cx cy rx ry ccw)).evaluate
          (slideEllipse (ry / rx) (t + start / (2 * π)))) ∧
    (0 < ra →
      Filter.Tendsto (slideEllipse ra) (nhdsWithin (1/4) (Set.Iio (1/4)))
        (nhds (1/4)) ∧
      Filter.Tendsto (slideEllipse ra) (nhdsWithin (1/4) (Set.Ioi (1/4)))
        (nhds (1/4))) := by
  have h2pi : (0:ℝ) < 2 * π := by positivity
  refine ⟨?_, normT_mem_Ico t, normT_mod_one t, fun s cx cy rx ry start ccw =>
    ⟨rfl, rfl⟩, ?_⟩
  · simp only [slideEllipse]
    rw [show (0.25 : ℝ) = 1/4 by norm_num, show (0.5 : ℝ) = 1/2 by norm_num]
  · intro hra
    constructor
    · -- left-hand limit at the quadrant boundary 1/4
      have hmap : Filter.Tendsto (fun u : ℝ => u * (2 * π))
          (nhdsWithin (1/4) (Set.Iio (1/4))) (nhdsWithin (π/2) (Set.Iio (π/2))) := by
        rw [tendsto_nhdsWithin_iff]
        constructor
        · have hb : Filter.Tendsto (fun u : ℝ => u * (2 * π)) (nhds (1/4))
              (nhds ((1/4) * (2 * π))) := Filter.Tendsto.mul_const _ Filter.tendsto_id
          have h14 : (1/4 : ℝ) * (2 * π) = π / 2 := by ring
          rw [h14] at hb
          exact hb.mono_left nhdsWithin_le_nhds
        · filter_upwards [self_mem_nhdsWithin] with u hu
          rw [Set.mem_Iio] at hu ⊢
          have := mul_lt_mul_of_pos_right hu h2pi
          linarith [this]
      have htan := Real.tendsto_tan_pi_div_two.comp hmap
      have hmul := htan.atTop_mul_const hra
      have harc := (Real.tendsto_arctan_atTop.comp hmul).mono_right nhdsWithin_le_nhds
      have hdiv := harc.div_const (2 * π)
      have hval : π / 2 / (2 * π) = (1/4 : ℝ) := by
        rw [div_div, div_eq_iff (by positivity : (0:ℝ) < 2 * (2 * π)).ne']
        ring
      rw [hval] at hdiv
      refine Filter.Tendsto.congr' ?_ hdiv
      filter_upwards [Ioo_mem_nhdsWithin_Iio' (show (0:ℝ) < 1/4 by norm_num)] with u hu
      have hnt : normT u = u := normT_eq_self (by linarith [hu.1]) (by linarith [hu.2])
      have h025 : (0.25 : ℝ) = 1/4 := by norm_num
      have habs : ¬((0.25 : ℝ) < |u|) := by
        rw [h025, abs_of_pos hu.1]
        linarith [hu.2]
      simp only [Function.comp, slideEllipse, hnt, if_neg habs, add_zero]
    · -- right-hand limit at the quadrant boundary 1/4
      have hmap2 : Filter.Tendsto (fun u : ℝ => u * (2 * π) - π)
          (nhdsWithin (1/4) (Set.Ioi (1/4)))
          (nhdsWithin (-(π/2)) (Set.Ioi (-(π/2)))) := by
        rw [tendsto_nhdsWithin_iff]
        constructor
        · have hb : Filter.Tendsto (fun u : ℝ => u * (2 * π) - π) (nhds (1/4))
              (nhds ((1/4) * (2 * π) - π)) :=
            Filter.Tendsto.sub_const (Filter.Tendsto.mul_const _ Filter.tendsto_id) π
          have h14 : (1/4 : ℝ) * (2 * π) - π = -(π / 2) := by ring
          rw [h14] at hb
          exact hb.mono_left nhdsWithin_le_nhds
        · filter_upwards [self_mem_nhdsWithin] with u hu
          rw [Set.mem_Ioi] at hu ⊢
          have := mul_lt_mul_of_pos_right hu h2pi
          linarith [this]
      have htan2 := Real.tendsto_tan_neg_pi_div_two.comp hmap2
      have htan2' : Filter.Tendsto (fun u : ℝ => Real.tan (u * (2 * π)))
          (nhdsWithin (1/4) (Set.Ioi (1/4))) Filter.atBot := by
        refine htan2.congr fun u => ?_
        simp only [Function.comp]
        exact Real.tan_sub_pi _
      have hmul2 := htan2'.atBot_mul_const hra
      have harc2 := (Real.tendsto_arctan_atBot.comp hmul2).mono_right nhdsWithin_le_nhds
      have hdiv2 := harc2.div_const (2 * π)
      have hval2 : -(π/2) / (2 * π) = -(1/4 : ℝ) := by
        rw [neg_div, neg_inj, div_div, div_eq_iff (by positivity : (0:ℝ) < 2 * (2 * π)).ne']
        ring
      rw [hval2] at hdiv2
      have hadd := hdiv2.add_const (1/2 : ℝ)
      rw [show (-(1/4) : ℝ) + 1/2 = 1/4 by norm_num] at hadd
      refine Filter.Tendsto.congr' ?_ hadd
      filter_upwards [Ioo_mem_nhdsWithin_Ioi' (show (1/4 : ℝ) < 1/2 by norm_num)] with u hu
      have hnt : normT u = u := normT_eq_self (by linarith [hu.1]) hu.2
      have hupos : (0:ℝ) < u := lt_trans (by norm_num) hu.1
      have h025 : (0.25 : ℝ) = 1/4 := by norm_num
      have habs : (0.25 : ℝ) < |u| := by
        rw [h025, abs_of_pos hupos]
        linarith [hu.1]
      simp only [Function.comp, slideEllipse, hnt, if_pos habs,
        Real.sign_of_pos hupos, mul_one]
      norm_num

theorem slideEllipse_reparam_witness :
    ((0:ℝ) < 1) ∧
    Filter.Tendsto (slideEllipse 1) (nhdsWithin (1/4) (Set.Iio (1/4))) (nhds (1/4)) :=
  ⟨by norm_num, ((slideEllipse_reparam 1 0).2.2.2.2 (by norm_num)).1⟩

/-- C1 counterexample: in the `blend < oldA`, `oldA = 1` branch, drawPixel is
not the standard source-over blend weighted by `blend` in premultiplied space:
over an opaque black pixel, with new colour r = 1, alpha 1/2 and coverage 1/2,
the code stores red channel 255/2 = 127.5 while the spec's formula gives 85. -/
theorem drawPixel_not_source_over :
    (drawPixel 1 1 (fun _ _ => ⟨0, 0, 0, 255⟩) 0 0 1 0 0 (1/2) (1/2) 0 0).r = 255/2 ∧
    specSourceOverChannel 0 1 255 (1/2) (1/2) = 85 ∧ ((255/2 : ℝ) ≠ 85) := by
  have hc1 : clamp01 (1 : ℝ) = 1 := clamp01_eq_self (by norm_num) (by norm_num)
  have hc0 : clamp01 (0 : ℝ) = 0 := clamp01_eq_self (by norm_num) (by norm_num)
  have hch : clamp01 (1/2 : ℝ) = 1/2 := clamp01_eq_self (by norm_num) (by norm_num)
  refine ⟨?_, ?_, by norm_num⟩
  · simp only [drawPixel, hc1, hc0, hch]
    rw [if_neg (by norm_num), if_neg (by norm_num), if_pos (by norm_num)]
    norm_num [setPx, lerp]
  · norm_num [specSourceOverChannel, lerp]

end
